import Mathlib

/-!
Verification of the Puzzle-Solver propagation engine.

The propagators (`prop_BT`, `prop_FC`, `prop_GAC`, from `src/propagators.py`)
and the binary-not-equal grid model (`src/models.py`) are embedded shallowly.
The data model they operate on (`cspbase.py`: `Variable`, `Constraint`, `CSP`)
is not part of the provided sources; its operations are modelled from the
specification (spec.md §3, §4.1-§4.3), as flagged on each definition.

Variables are identified by natural numbers and domain values are natural
numbers.  The mutable search state is a function from variable ids to a
`VarState` (current domain plus optional assigned value); the CSP itself
(variables, constraints, satisfying-tuple tables) is immutable data, matching
the spec's constraint-immutability invariant (§3) and the fact that the
propagators mutate only per-variable domain/assignment state.

The GAC worklist loop of `prop_GAC` is a `while` loop; it is embedded with an
explicit fuel parameter (`gac_fuel` is an ample bound), so `prop_GAC` returns
`none` only if the fuel is exhausted.  All theorems about complete runs are
stated on results of the form `some r`.
-/

namespace PuzzleSolver

/-! ## Definitions: data model (modelled from the spec; cspbase.py is absent from src/) -/

/-- Modelled from the spec: the mutable per-variable search state of
`cspbase.Variable` (absent from `src/`), spec §3/§4.1 — the current domain
(an ordered sequence of values) and the optional assigned value. -/
structure VarState where
  curDom : List Nat
  assigned : Option Nat
deriving DecidableEq, Repr

/-- The mutable state of a search: every variable id has a `VarState`. -/
def State := Nat → VarState

/-- A constraint (spec §3/§4.2): a name, an ordered scope of variable ids and
the immutable table of satisfying tuples, one value per scope position. -/
structure Cons where
  name : String
  scope : List Nat
  satTuples : List (List Nat)
deriving DecidableEq, Repr

/-- A CSP (spec §3/§4.3): the variable ids it owns and its constraints in
insertion order. -/
structure CSPm where
  vars : List Nat
  cons : List Cons
deriving DecidableEq, Repr

/-- Point update of the state of one variable. -/
def updState (σ : State) (x : Nat) (s : VarState) : State :=
  fun y => if y = x then s else σ y

/-- Modelled from the spec: `Variable.cur_domain()` lists the values of the
current domain (spec §4.1). -/
def cur_domain (σ : State) (x : Nat) : List Nat := (σ x).curDom

/-- Modelled from the spec: `Variable.get_assigned_value()` (spec §3);
`none` when the variable is unassigned. -/
def get_assigned_value (σ : State) (x : Nat) : Option Nat := (σ x).assigned

/-- Modelled from the spec: `Variable.prune_value(v)` removes `v` from the
current domain and touches nothing else (spec §4.1). -/
def prune_value (σ : State) (x v : Nat) : State :=
  updState σ x ⟨((σ x).curDom).erase v, (σ x).assigned⟩

/-- Modelled from the spec: `Variable.assign(value)` sets the assigned value
and does not alter the current domain (spec §4.1; the source enforces the
legality conditions by assumption only). -/
def assign (σ : State) (x v : Nat) : State :=
  updState σ x ⟨(σ x).curDom, some v⟩

/-- Modelled from the spec: `Variable.unassign()` clears the assigned value
(spec §4.1). -/
def unassign (σ : State) (x : Nat) : State :=
  updState σ x ⟨(σ x).curDom, none⟩

/-- Modelled from the spec: a value is currently available for a variable if
it equals the assigned value when the variable is assigned, and lies in the
current domain otherwise (spec §3 invariant and §4.2 `has_support`). -/
def in_cur_domain (σ : State) (x v : Nat) : Bool :=
  match (σ x).assigned with
  | some a => v == a
  | none => ((σ x).curDom).contains v

/-- Modelled from the spec: `Constraint.check(values)` is true iff the value
vector (one entry per scope position, `none` standing for Python's `None` on
an unassigned variable) exactly matches a stored satisfying tuple (§4.2). -/
def check (c : Cons) (vals : List (Option Nat)) : Bool :=
  (c.satTuples.map (fun t => t.map some)).contains vals

/-- Modelled from the spec: a tuple is consistent with the current domains when
every scope position's value is currently available for its variable (§4.2). -/
def tuple_is_valid (σ : State) (scope : List Nat) (t : List Nat) : Bool :=
  (scope.zip t).all (fun p => in_cur_domain σ p.1 p.2)

/-- Modelled from the spec: `Constraint.has_support(var, val)` — some
satisfying tuple puts `val` at `var`'s scope position and is consistent with
every scope variable's current domain / assigned value (§4.2). -/
def has_support (σ : State) (c : Cons) (x v : Nat) : Bool :=
  c.satTuples.any (fun t =>
    (c.scope.zip t).any (fun p => p.1 == x && p.2 == v) && tuple_is_valid σ c.scope t)

/-- Modelled from the spec: `Constraint.get_unasgn_vars()` — the scope members
without an assigned value, in scope order (§4.2). -/
def get_unasgn_vars (σ : State) (c : Cons) : List Nat :=
  c.scope.filter (fun y => ((σ y).assigned).isNone)

/-- Modelled from the spec: `Constraint.get_n_unasgn()` (§4.2). -/
def get_n_unasgn (σ : State) (c : Cons) : Nat := (get_unasgn_vars σ c).length

/-- Modelled from the spec: `CSP.get_cons_with_var(v)` — the constraints whose
scope contains the variable, in constraint insertion order (§4.3). -/
def get_cons_with_var (csp : CSPm) (x : Nat) : List Cons :=
  csp.cons.filter (fun c => c.scope.contains x)

/-! ## Definitions: prop_BT (src/propagators.py lines 59-70) -/

/-- The loop body of `prop_BT`: walk the constraints; for each fully assigned
one evaluate `check` on the assigned values in scope order, returning `false`
at the first failure (the early `return False, []`). -/
def bt_loop (σ : State) : List Cons → Bool
  | [] => true
  | c :: rest =>
    if get_n_unasgn σ c = 0 then
      if check c (c.scope.map (fun y => get_assigned_value σ y)) then bt_loop σ rest
      else false
    else bt_loop σ rest

/-- `prop_BT` (src/propagators.py:59-70).  It never mutates the state, so it
returns only the success flag and the (always empty) prune list. -/
def prop_BT (csp : CSPm) (σ : State) (newVar : Option Nat) :
    Bool × List (Nat × Nat) :=
  match newVar with
  | none => (true, [])
  | some v => (bt_loop σ (get_cons_with_var csp v), [])

/-! ## Definitions: prop_FC (src/propagators.py lines 73-109) -/

/-- The constraint-collection phase of `prop_FC` (lines 79-89): with no new
variable, every unary constraint; with new variable `v`, every constraint
containing `v` with exactly one unassigned scope member. -/
def fc_collect (csp : CSPm) (σ : State) (newVar : Option Nat) : List Cons :=
  match newVar with
  | none => csp.cons.filter (fun c => c.scope.length == 1)
  | some v => (get_cons_with_var csp v).filter (fun c => get_n_unasgn σ c == 1)

/-- One constraint's pass of `prop_FC` (lines 94-104), iterating over a
snapshot of the unassigned variable's current domain: tentatively assign the
candidate value, read off the scope's assigned values, unassign, and prune the
value when `check` fails; `flag` records whether some value survived. -/
def fc_pass (c : Cons) (x : Nat) :
    List Nat → State → List (Nat × Nat) → Bool → State × List (Nat × Nat) × Bool
  | [], σ, pr, flag => (σ, pr, flag)
  | val :: vs, σ, pr, flag =>
    let σa := assign σ x val
    let vals := c.scope.map (fun y => get_assigned_value σa y)
    let σb := unassign σa x
    if check c vals then fc_pass c x vs σb pr true
    else fc_pass c x vs (prune_value σb x val) (pr ++ [(x, val)]) flag

/-- The outer loop of `prop_FC` (lines 92-109).  `none` models the Python
`IndexError` raised by `con.get_unasgn_vars()[0]` when a collected constraint
has no unassigned scope variable. -/
def fc_loop : List Cons → State → List (Nat × Nat) →
    Option (Bool × List (Nat × Nat) × State)
  | [], σ, pr => some (true, pr, σ)
  | c :: rest, σ, pr =>
    match get_unasgn_vars σ c with
    | [] => none
    | x :: _ =>
      match fc_pass c x (cur_domain σ x) σ pr false with
      | (σ2, pr2, flag) =>
        if flag then fc_loop rest σ2 pr2 else some (false, pr2, σ2)

/-- `prop_FC` (src/propagators.py:73-109). -/
def prop_FC (csp : CSPm) (σ : State) (newVar : Option Nat) :
    Option (Bool × List (Nat × Nat) × State) :=
  fc_loop (fc_collect csp σ newVar) σ []

/-! ## Definitions: prop_GAC (src/propagators.py lines 112-139) -/

/-- The re-enqueue step of `prop_GAC` (lines 136-138): append, in order, each
constraint not already present in the worklist. -/
def enqueue_new : List Cons → List Cons → List Cons
  | [], que => que
  | c :: cs, que => enqueue_new cs (if c ∈ que then que else que ++ [c])

/-- The inner value loop of `prop_GAC` (lines 127-138) for one scope variable
`x` of the constraint under revision, iterating over a snapshot `vals` of `x`'s
current domain.  `Sum.inr` is the early DWO return `(False, prune_lst)`. -/
def gac_revise_vals (csp : CSPm) (c : Cons) (x : Nat) :
    List Nat → State → List Cons → List (Nat × Nat) →
    (State × List Cons × List (Nat × Nat)) ⊕ (State × List (Nat × Nat))
  | [], σ, que, pr => Sum.inl (σ, que, pr)
  | v :: vs, σ, que, pr =>
    if has_support σ c x v then gac_revise_vals csp c x vs σ que pr
    else
      let σ2 := prune_value σ x v
      let pr2 := pr ++ [(x, v)]
      if cur_domain σ2 x = [] then Sum.inr (σ2, pr2)
      else gac_revise_vals csp c x vs σ2 (enqueue_new (get_cons_with_var csp x) que) pr2

/-- The scope loop of `prop_GAC` (line 126): revise each scope variable of the
popped constraint in scope order. -/
def gac_revise_scope (csp : CSPm) (c : Cons) :
    List Nat → State → List Cons → List (Nat × Nat) →
    (State × List Cons × List (Nat × Nat)) ⊕ (State × List (Nat × Nat))
  | [], σ, que, pr => Sum.inl (σ, que, pr)
  | x :: xs, σ, que, pr =>
    match gac_revise_vals csp c x (cur_domain σ x) σ que pr with
    | Sum.inl (σ2, que2, pr2) => gac_revise_scope csp c xs σ2 que2 pr2
    | Sum.inr r => Sum.inr r

/-- Result of a complete `prop_GAC` run: success flag, prune list, final state. -/
structure GacResult where
  ok : Bool
  prunes : List (Nat × Nat)
  state : State

/-- The worklist loop of `prop_GAC` (lines 122-139): pop the front constraint,
revise it, stop with success when the worklist empties.  The fuel argument
makes the `while` loop structurally recursive; `none` means fuel ran out. -/
def gac_loop (csp : CSPm) : Nat → List Cons → State → List (Nat × Nat) →
    Option GacResult
  | 0, _, _, _ => none
  | _ + 1, [], σ, pr => some ⟨true, pr, σ⟩
  | fuel + 1, curr :: rest, σ, pr =>
    match gac_revise_scope csp curr curr.scope σ rest pr with
    | Sum.inl (σ2, que2, pr2) => gac_loop csp fuel que2 σ2 pr2
    | Sum.inr (σ2, pr2) => some ⟨false, pr2, σ2⟩

/-- An ample fuel bound: every iteration either shortens the worklist or
prunes a value, so this bound is never reached on well-formed inputs. -/
def gac_fuel (csp : CSPm) (σ : State) : Nat :=
  ((csp.vars.map (fun x => ((σ x).curDom).length)).sum + 1) * (csp.cons.length + 1) + 1

/-- `prop_GAC` (src/propagators.py:112-139).  Per spec §4.3/§6 the worklist is
initialised from the value listing returned by `get_all_cons` /
`get_cons_with_var`; mutating the worklist does not affect the CSP itself. -/
def prop_GAC (csp : CSPm) (σ : State) (newVar : Option Nat) : Option GacResult :=
  let que := match newVar with
    | none => csp.cons
    | some v => get_cons_with_var csp v
  gac_loop csp (gac_fuel csp σ) que σ []

/-! ## Definitions: the binary not-equal grid model (src/models.py) -/

/-- A constraint produced by the grid model: board cells are identified by
their `(row, column)` index pair in `var_array`. -/
structure GridCons where
  name : String
  scope : List (Nat × Nat)
  satTuples : List (List Nat)
deriving DecidableEq, Repr

/-- The satisfying tuples built by `warehouse_binary_ne_grid`
(src/models.py:41-46): all pairs `[x, y]` with `1 ≤ x, y ≤ n` and `x ≠ y`. -/
def binary_sat (n : Nat) : List (List Nat) :=
  (List.range' 1 n).flatMap (fun x =>
    (List.range' 1 n).filterMap (fun y => if x ≠ y then some [x, y] else none))

/-- The constraints `_expand` (src/models.py:186-202) adds for cell `(x, y)`:
column-direction partners `board[i][y]` for `x < i < n` and row-direction
partners `board[x][i]` for `y < i < n`.  Both loops build the constraint name
as `str(x)+str(y)+str(i)+str(y)`. -/
def expand_cell (x y n : Nat) (sat : List (List Nat)) : List GridCons :=
  (List.range' (x + 1) (n - (x + 1))).map
    (fun i => ⟨toString x ++ toString y ++ toString i ++ toString y,
               [(x, y), (i, y)], sat⟩)
  ++ (List.range' (y + 1) (n - (y + 1))).map
    (fun i => ⟨toString x ++ toString y ++ toString i ++ toString y,
               [(x, y), (x, i)], sat⟩)

/-- The full constraint list built by `warehouse_binary_ne_grid` via
`binary_constraint_generator` (src/models.py:35-49 and 177-183), in insertion
order. -/
def warehouse_binary_ne_cons (n : Nat) : List GridCons :=
  (List.range n).flatMap (fun x =>
    (List.range n).flatMap (fun y => expand_cell x y n (binary_sat n)))

/-! ## Definitions: specification predicates and reference functions -/

/-- Well-formed domains: no variable's current domain repeats a value
(domains are sets of values, spec §3 and glossary). -/
def WFdoms (σ : State) : Prop := ∀ x, ((σ x).curDom).Nodup

/-- Accounting invariant relating a state `σ` reached from `σ0` to the prune
list `pr` accumulated on the way: the list has no duplicate pair, every pair's
value was present in the starting domain, and each current domain is exactly
the starting domain minus the values pruned from that variable. -/
def PruneAcc (σ0 σ : State) (pr : List (Nat × Nat)) : Prop :=
  pr.Nodup ∧
  (∀ p ∈ pr, p.2 ∈ (σ0 p.1).curDom) ∧
  (∀ x, (σ x).curDom = ((σ0 x).curDom).filter (fun v => decide ((x, v) ∉ pr)))

/-- The scope-value vector that one probe of `prop_FC` submits to `check`:
the candidate value at the probed variable's positions, the assigned values
elsewhere (`none` for an unassigned variable). -/
def fc_probe_vals (σ : State) (c : Cons) (u val : Nat) : List (Option Nat) :=
  c.scope.map (fun y => if y = u then some val else (σ y).assigned)

/-- Reference function written from the claim/spec wording (§4.5): per
collected constraint, with `u` the single unassigned variable, prune exactly
the values whose full scope tuple fails `check`, fail immediately iff the pass
leaves zero surviving values, otherwise continue with the pruned state and
accumulated prune list. -/
def fc_run_spec : List Cons → State → List (Nat × Nat) →
    Option (Bool × List (Nat × Nat) × State)
  | [], σ, pr => some (true, pr, σ)
  | c :: rest, σ, pr =>
    match get_unasgn_vars σ c with
    | [] => none
    | u :: _ =>
      if (cur_domain σ u).any (fun val => check c (fc_probe_vals σ c u val)) then
        fc_run_spec rest
          (updState σ u ⟨(cur_domain σ u).filter
            (fun val => check c (fc_probe_vals σ c u val)), (σ u).assigned⟩)
          (pr ++ ((cur_domain σ u).filter
            (fun val => !(check c (fc_probe_vals σ c u val)))).map (fun val => (u, val)))
      else
        some (false,
          pr ++ ((cur_domain σ u).filter
            (fun val => !(check c (fc_probe_vals σ c u val)))).map (fun val => (u, val)),
          updState σ u ⟨(cur_domain σ u).filter
            (fun val => check c (fc_probe_vals σ c u val)), (σ u).assigned⟩)

/-- A CSP with one unary constraint whose scope variable is already assigned:
on the `newVar = None` path `prop_FC` evaluates `con.get_unasgn_vars()[0]` on
an empty list (Python `IndexError`), modelled by the `none` result. -/
def fcCrashCSP : CSPm := ⟨[0], [⟨"u", [0], [[1]]⟩]⟩

/-- State for `fcCrashCSP`: variable 0 is assigned. -/
def fcCrashState : State := fun _ => ⟨[1], some 1⟩

/-- The state carried by a revision outcome (both the continue and DWO case). -/
def revise_state :
    (State × List Cons × List (Nat × Nat)) ⊕ (State × List (Nat × Nat)) → State
  | Sum.inl s => s.1
  | Sum.inr s => s.1

/-- The prune list carried by a revision outcome. -/
def revise_prunes :
    (State × List Cons × List (Nat × Nat)) ⊕ (State × List (Nat × Nat)) →
      List (Nat × Nat)
  | Sum.inl s => s.2.2
  | Sum.inr s => s.2

/-- The worklist invariant of the GAC fixed point: every CSP constraint not on
the worklist has support for all current values of all its scope variables. -/
def queue_inv (csp : CSPm) (σ : State) (que : List Cons) : Prop :=
  ∀ d ∈ csp.cons, d ∉ que →
    ∀ x ∈ d.scope, ∀ w ∈ cur_domain σ x, has_support σ d x w = true

/-! ## Definitions: concrete instances for counterexamples and witnesses -/

/-- The constraint of the spec's DWO scenario (§8): scope (A, B) with A the
variable 0 and B the variable 1, satisfying tuples {(1, 2)} only. -/
def dwoCon : Cons := ⟨"c", [0, 1], [[1, 2]]⟩

/-- The CSP of the spec's DWO scenario. -/
def dwoCSP : CSPm := ⟨[0, 1], [dwoCon]⟩

/-- Domains A = {1}, B = {3}, no variable assigned. -/
def dwoState : State := fun x =>
  if x = 0 then ⟨[1], none⟩ else if x = 1 then ⟨[3], none⟩ else ⟨[], none⟩

/-- Domains A = {1}, B = {2}, no variable assigned: `dwoCon` is satisfiable
and GAC succeeds without pruning. -/
def gacOkState : State := fun x =>
  if x = 0 then ⟨[1], none⟩ else if x = 1 then ⟨[2], none⟩ else ⟨[], none⟩

/-- A binary not-equal constraint on variables 0 and 1 with domain {1, 2, 3}
(the spec's FC scenario, §8). -/
def neCon : Cons :=
  ⟨"ne01", [0, 1], [[1, 2], [1, 3], [2, 1], [2, 3], [3, 1], [3, 2]]⟩

/-- The CSP of the FC scenario. -/
def fcCSP : CSPm := ⟨[0, 1], [neCon]⟩

/-- Variable 0 assigned 1, variable 1 unassigned with domain {1, 2, 3}. -/
def fcState : State := fun x =>
  if x = 0 then ⟨[1, 2, 3], some 1⟩
  else if x = 1 then ⟨[1, 2, 3], none⟩ else ⟨[], none⟩

@[simp] theorem updState_same (σ : State) (x : Nat) (s : VarState) :
    updState σ x s x = s := by simp [updState]

theorem updState_other (σ : State) (x : Nat) (s : VarState) {y : Nat}
    (h : y ≠ x) : updState σ x s y = σ y := by simp [updState, h]

theorem list_any_congr {α : Type} {l : List α} {f g : α → Bool}
    (h : ∀ a ∈ l, f a = g a) : l.any f = l.any g := by
  induction l with
  | nil => rfl
  | cons a l ih =>
    simp only [List.any_cons, h a (List.mem_cons_self a l)]
    rw [ih (fun b hb => h b (List.mem_cons_of_mem a hb))]

theorem list_all_congr {α : Type} {l : List α} {f g : α → Bool}
    (h : ∀ a ∈ l, f a = g a) : l.all f = l.all g := by
  induction l with
  | nil => rfl
  | cons a l ih =>
    simp only [List.all_cons, h a (List.mem_cons_self a l)]
    rw [ih (fun b hb => h b (List.mem_cons_of_mem a hb))]

/-- `has_support` only reads the states of the constraint's scope variables. -/
theorem has_support_congr {σ' σ : State} {c : Cons}
    (h : ∀ y ∈ c.scope, σ' y = σ y) (x v : Nat) :
    has_support σ' c x v = has_support σ c x v := by
  unfold has_support
  refine list_any_congr (fun t _ => ?_)
  have : tuple_is_valid σ' c.scope t = tuple_is_valid σ c.scope t := by
    unfold tuple_is_valid
    refine list_all_congr (fun p hp => ?_)
    have hy : p.1 ∈ c.scope := (List.of_mem_zip hp).1
    unfold in_cur_domain
    rw [h p.1 hy]
  rw [this]

/-- `get_unasgn_vars` only reads assignment state. -/
theorem get_unasgn_vars_congr {σ' σ : State} {c : Cons}
    (h : ∀ y, (σ' y).assigned = (σ y).assigned) :
    get_unasgn_vars σ' c = get_unasgn_vars σ c := by
  unfold get_unasgn_vars
  exact List.filter_congr (fun y _ => by rw [h y])

/-! ## Theorems: prop_BT (claim C6) -/

theorem bt_loop_false_iff (σ : State) :
    ∀ l : List Cons, bt_loop σ l = false ↔
      ∃ c ∈ l, get_n_unasgn σ c = 0 ∧
        check c (c.scope.map (fun y => get_assigned_value σ y)) = false := by
  intro l
  induction l with
  | nil => simp [bt_loop]
  | cons c rest ih =>
    unfold bt_loop
    by_cases h : get_n_unasgn σ c = 0
    · rw [if_pos h]
      by_cases hc : check c (c.scope.map (fun y => get_assigned_value σ y)) = true
      · rw [if_pos hc, ih]
        constructor
        · rintro ⟨d, hd, hprop⟩
          exact ⟨d, List.mem_cons_of_mem c hd, hprop⟩
        · rintro ⟨d, hd, hprop⟩
          rcases List.mem_cons.1 hd with rfl | hd'
          · rw [hc] at hprop; exact absurd hprop.2 (by simp)
          · exact ⟨d, hd', hprop⟩
      · have hc' : check c (c.scope.map (fun y => get_assigned_value σ y)) = false :=
          Bool.eq_false_iff.2 hc
        rw [if_neg hc]
        constructor
        · intro _
          exact ⟨c, List.mem_cons_self c rest, h, hc'⟩
        · intro _; rfl
    · rw [if_neg h, ih]
      constructor
      · rintro ⟨d, hd, hprop⟩
        exact ⟨d, List.mem_cons_of_mem c hd, hprop⟩
      · rintro ⟨d, hd, hprop⟩
        rcases List.mem_cons.1 hd with rfl | hd'
        · exact absurd hprop.1 h
        · exact ⟨d, hd', hprop⟩

/-- Claim C6: `prop_BT` with no newly-assigned variable returns `(True, [])`;
with variable `V` it checks, in scope order, the assigned values of every
fully assigned constraint containing `V`, failing iff one of them fails
`check`; its prune list is empty in every case (it never prunes: it does not
touch the state at all). -/
theorem claim_C6_prop_BT :
    (∀ csp σ, prop_BT csp σ none = (true, [])) ∧
    (∀ csp σ v, (prop_BT csp σ (some v)).2 = ([] : List (Nat × Nat)) ∧
      ((prop_BT csp σ (some v)).1 = false ↔
        ∃ c ∈ get_cons_with_var csp v, get_n_unasgn σ c = 0 ∧
          check c (c.scope.map (fun y => get_assigned_value σ y)) = false)) := by
  refine ⟨fun csp σ => rfl, fun csp σ v => ⟨rfl, ?_⟩⟩
  exact bt_loop_false_iff σ (get_cons_with_var csp v)

/-! ## Theorems: pruning accounting -/

theorem PruneAcc_refl (σ : State) : PruneAcc σ σ [] := by
  refine ⟨List.nodup_nil, by simp, fun x => ?_⟩
  simp

/-- Pruning a value that is present in the current domain extends the
accounting invariant by one pair. -/
theorem PruneAcc_step {σ0 σ : State} {pr : List (Nat × Nat)} {x v : Nat}
    (hwf : WFdoms σ0) (h : PruneAcc σ0 σ pr) (hv : v ∈ (σ x).curDom) :
    PruneAcc σ0 (prune_value σ x v) (pr ++ [(x, v)]) := by
  obtain ⟨hnd, hmem, hdom⟩ := h
  rw [hdom x, List.mem_filter] at hv
  have hv0 : v ∈ (σ0 x).curDom := hv.1
  have hvpr : (x, v) ∉ pr := by simpa using hv.2
  refine ⟨?_, ?_, ?_⟩
  · rw [List.nodup_append]
    exact ⟨hnd, List.nodup_singleton _,
      fun p hp => by simp only [List.mem_singleton]; rintro rfl; exact hvpr hp⟩
  · intro p hp
    rcases List.mem_append.1 hp with hp' | hp'
    · exact hmem p hp'
    · rw [List.mem_singleton] at hp'; subst hp'; exact hv0
  · intro y
    by_cases hy : y = x
    · subst hy
      have hndf : ((σ y).curDom).Nodup := by rw [hdom y]; exact (hwf y).filter _
      simp only [prune_value, updState_same]
      rw [List.Nodup.erase_eq_filter hndf, hdom y, List.filter_filter]
      refine List.filter_congr (fun w _ => ?_)
      simp only [List.mem_append, List.mem_singleton, Prod.mk.injEq, true_and]
      rcases eq_or_ne w v with rfl | hw
      · simp
      · simp [hw, bne_iff_ne]
    · rw [prune_value, updState_other _ _ _ hy, hdom y]
      refine List.filter_congr (fun w _ => ?_)
      simp only [List.mem_append, List.mem_singleton, Prod.mk.injEq]
      simp [hy]

/-- Under the accounting invariant, current domains stay duplicate-free. -/
theorem PruneAcc_wf {σ0 σ : State} {pr : List (Nat × Nat)}
    (hwf : WFdoms σ0) (h : PruneAcc σ0 σ pr) : WFdoms σ := by
  intro x
  rw [h.2.2 x]
  exact (hwf x).filter _

/-! ## Theorems: the worklist insertion discipline of prop_GAC -/

/-- Characterisation of `enqueue_new`: the old worklist is kept unchanged at
the front, and exactly those offered constraints that were not already present
are appended behind it, once each, in offer order. -/
theorem enqueue_new_spec : ∀ (cs que : List Cons), ∃ ext,
    enqueue_new cs que = que ++ ext ∧ ext.Nodup ∧
      (∀ d, d ∈ ext ↔ (d ∈ cs ∧ d ∉ que)) := by
  intro cs
  induction cs with
  | nil =>
    intro que
    exact ⟨[], by simp [enqueue_new], List.nodup_nil, by simp⟩
  | cons c cs ih =>
    intro que
    unfold enqueue_new
    by_cases hc : c ∈ que
    · rw [if_pos hc]
      obtain ⟨ext, heq, hnd, hiff⟩ := ih que
      refine ⟨ext, heq, hnd, fun d => ?_⟩
      rw [hiff d]
      constructor
      · rintro ⟨hd, hdq⟩; exact ⟨List.mem_cons_of_mem c hd, hdq⟩
      · rintro ⟨hd, hdq⟩
        rcases List.mem_cons.1 hd with rfl | hd'
        · exact absurd hc hdq
        · exact ⟨hd', hdq⟩
    · rw [if_neg hc]
      obtain ⟨ext, heq, hnd, hiff⟩ := ih (que ++ [c])
      refine ⟨c :: ext, ?_, ?_, fun d => ?_⟩
      · rw [heq, List.append_assoc]; rfl
      · rw [List.nodup_cons]
        refine ⟨fun hcext => ?_, hnd⟩
        exact ((hiff c).1 hcext).2 (by simp)
      · rw [List.mem_cons, hiff d]
        constructor
        · rintro (rfl | ⟨hd, hdq⟩)
          · exact ⟨List.mem_cons_self _ _, hc⟩
          · exact ⟨List.mem_cons_of_mem c hd,
              fun hq => hdq (List.mem_append_left _ hq)⟩
        · rintro ⟨hd, hdq⟩
          rcases List.mem_cons.1 hd with rfl | hd'
          · exact Or.inl rfl
          · rcases eq_or_ne d c with rfl | hdc
            · exact Or.inl rfl
            · refine Or.inr ⟨hd', fun hq => ?_⟩
              rcases List.mem_append.1 hq with hq' | hq'
              · exact hdq hq'
              · exact hdc (List.mem_singleton.1 hq')

theorem mem_enqueue_new_left {d : Cons} {que : List Cons} (cs : List Cons)
    (h : d ∈ que) : d ∈ enqueue_new cs que := by
  obtain ⟨ext, heq, -, -⟩ := enqueue_new_spec cs que
  rw [heq]
  exact List.mem_append_left _ h

theorem mem_enqueue_new_of_mem {d : Cons} {cs : List Cons} (que : List Cons)
    (h : d ∈ cs) : d ∈ enqueue_new cs que := by
  obtain ⟨ext, heq, -, hiff⟩ := enqueue_new_spec cs que
  rw [heq]
  by_cases hq : d ∈ que
  · exact List.mem_append_left _ hq
  · exact List.mem_append_right _ ((hiff d).2 ⟨h, hq⟩)

theorem enqueue_new_nodup {que : List Cons} (cs : List Cons)
    (h : que.Nodup) : (enqueue_new cs que).Nodup := by
  obtain ⟨ext, heq, hnd, hiff⟩ := enqueue_new_spec cs que
  rw [heq, List.nodup_append]
  exact ⟨h, hnd, fun d hd hd' => ((hiff d).1 hd').2 hd⟩

/-! ## Theorems: the tentative-assignment probe of prop_FC -/

/-- A paired tentative assign/unassign probe restores the state exactly when
the probed variable was unassigned. -/
theorem unassign_assign {σ : State} {x : Nat} (h : (σ x).assigned = none)
    (v : Nat) : unassign (assign σ x v) x = σ := by
  funext y
  by_cases hy : y = x
  · subst hy
    simp only [unassign, assign, updState_same]
    rw [← h]
  · simp only [unassign, assign]
    rw [updState_other _ _ _ hy, updState_other _ _ _ hy]

theorem assigned_after_assign (σ : State) (x v y : Nat) :
    get_assigned_value (assign σ x v) y =
      if y = x then some v else (σ y).assigned := by
  by_cases hy : y = x
  · subst hy; simp [get_assigned_value, assign]
  · simp only [get_assigned_value, assign, updState_other _ _ _ hy, if_neg hy]

theorem prune_assigned (σ : State) (x v y : Nat) :
    ((prune_value σ x v) y).assigned = (σ y).assigned := by
  by_cases hy : y = x
  · subst hy; simp [prune_value]
  · rw [prune_value, updState_other _ _ _ hy]

theorem fc_probe_vals_congr {σ' σ : State}
    (h : ∀ y, (σ' y).assigned = (σ y).assigned) (c : Cons) (u val : Nat) :
    fc_probe_vals σ' c u val = fc_probe_vals σ c u val := by
  unfold fc_probe_vals
  refine List.map_congr_left (fun y _ => ?_)
  rw [h y]

/-- Unfolding one step of `fc_pass`: given that the probed variable is
unassigned, the probe is invisible and the submitted vector is
`fc_probe_vals`. -/
theorem fc_pass_cons {c : Cons} {x : Nat} {σ : State}
    (h : (σ x).assigned = none) (val : Nat) (vs : List Nat)
    (pr : List (Nat × Nat)) (flag : Bool) :
    fc_pass c x (val :: vs) σ pr flag =
      if check c (fc_probe_vals σ c x val) then fc_pass c x vs σ pr true
      else fc_pass c x vs (prune_value σ x val) (pr ++ [(x, val)]) flag := by
  have hσb : unassign (assign σ x val) x = σ := unassign_assign h val
  have hvals : c.scope.map (fun y => get_assigned_value (assign σ x val) y) =
      fc_probe_vals σ c x val := by
    unfold fc_probe_vals
    exact List.map_congr_left (fun y _ => assigned_after_assign σ x val y)
  show (if check c (c.scope.map (fun y => get_assigned_value (assign σ x val) y))
      then fc_pass c x vs (unassign (assign σ x val) x) pr true
      else fc_pass c x vs (prune_value (unassign (assign σ x val) x) x val)
        (pr ++ [(x, val)]) flag) = _
  rw [hσb, hvals]

/-- Frame facts about one constraint pass of `prop_FC`: assignment state is
preserved everywhere and the probed variable's domain only shrinks. -/
theorem fc_pass_frame (c : Cons) (x : Nat) : ∀ (vals : List Nat) (σ : State)
    (pr : List (Nat × Nat)) (flag : Bool),
    (σ x).assigned = none →
    (∀ y, y ≠ x → (fc_pass c x vals σ pr flag).1 y = σ y) ∧
    (∀ y, ((fc_pass c x vals σ pr flag).1 y).assigned = (σ y).assigned) ∧
    (∀ v, v ∈ ((fc_pass c x vals σ pr flag).1 x).curDom → v ∈ (σ x).curDom) := by
  intro vals
  induction vals with
  | nil =>
    intro σ pr flag _
    exact ⟨fun y _ => rfl, fun y => rfl, fun v hv => hv⟩
  | cons val vs ih =>
    intro σ pr flag h
    rw [fc_pass_cons h]
    by_cases hcv : check c (fc_probe_vals σ c x val) = true
    · rw [if_pos hcv]
      exact ih σ pr true h
    · rw [if_neg hcv]
      have h1 : ((prune_value σ x val) x).assigned = none := by
        rw [prune_assigned]; exact h
      obtain ⟨hfr, hasg, hsub⟩ := ih (prune_value σ x val) (pr ++ [(x, val)]) flag h1
      refine ⟨?_, ?_, ?_⟩
      · intro y hy
        rw [hfr y hy, prune_value, updState_other _ _ _ hy]
      · intro y
        rw [hasg y, prune_assigned]
      · intro v hv
        have hv' := hsub v hv
        simp only [prune_value, updState_same] at hv'
        exact List.erase_subset _ _ hv'

/-- Closed form of one constraint pass of `prop_FC`: from a duplicate-free
snapshot of values of the unassigned variable `x`, the pass keeps exactly the
values whose probe passes `check`, appends the failing values to the prune
list in order, and reports whether any value survived. -/
theorem fc_pass_eq (c : Cons) (x : Nat) : ∀ (vals : List Nat) (σ : State)
    (pr : List (Nat × Nat)) (flag : Bool),
    (σ x).assigned = none → ((σ x).curDom).Nodup → vals.Nodup →
    (∀ v ∈ vals, v ∈ (σ x).curDom) →
    fc_pass c x vals σ pr flag =
      (updState σ x ⟨((σ x).curDom).filter
          (fun v => !(vals.contains v) || check c (fc_probe_vals σ c x v)), none⟩,
       pr ++ (vals.filter
          (fun v => !(check c (fc_probe_vals σ c x v)))).map (fun v => (x, v)),
       flag || vals.any (fun v => check c (fc_probe_vals σ c x v))) := by
  intro vals
  induction vals with
  | nil =>
    intro σ pr flag h _ _ _
    have hfil : ((σ x).curDom).filter
        (fun v => !(List.contains [] v) || check c (fc_probe_vals σ c x v)) =
        (σ x).curDom := by
      refine Eq.trans (List.filter_congr (fun w _ => ?_)) (List.filter_true _)
      rw [List.contains_nil, Bool.not_false, Bool.true_or]
    show (σ, pr, flag) = _
    rw [hfil]
    simp only [List.filter_nil, List.map_nil, List.append_nil, List.any_nil,
      Bool.or_false]
    refine Prod.ext ?_ rfl
    show σ = updState σ x ⟨(σ x).curDom, none⟩
    funext y
    by_cases hy : y = x
    · subst hy; rw [updState_same, ← h]
    · rw [updState_other _ _ _ hy]
  | cons val vs ih =>
    intro σ pr flag h hndd hndv hsub
    have hvs_nd : vs.Nodup := hndv.of_cons
    have hval_vs : val ∉ vs := (List.nodup_cons.1 hndv).1
    rw [fc_pass_cons h]
    by_cases hcv : check c (fc_probe_vals σ c x val) = true
    · have hfil : ((σ x).curDom).filter
          (fun v => !(vs.contains v) || check c (fc_probe_vals σ c x v)) =
          ((σ x).curDom).filter
          (fun v => !((val :: vs).contains v) || check c (fc_probe_vals σ c x v)) := by
        refine List.filter_congr (fun w _ => ?_)
        rcases eq_or_ne w val with rfl | hw
        · simp [hcv, hval_vs]
        · simp [List.mem_cons, hw]
      have hfil2 : (val :: vs).filter
          (fun v => !(check c (fc_probe_vals σ c x v))) =
          vs.filter (fun v => !(check c (fc_probe_vals σ c x v))) := by
        rw [List.filter_cons, if_neg (by simp [hcv])]
      have hany : (flag || (val :: vs).any
          (fun v => check c (fc_probe_vals σ c x v))) = true := by
        simp [hcv]
      rw [if_pos hcv,
        ih σ pr true h hndd hvs_nd (fun v hv => hsub v (List.mem_cons_of_mem _ hv)),
        hfil, ← hfil2, Bool.true_or, hany]
    · have hcv' : check c (fc_probe_vals σ c x val) = false := Bool.eq_false_iff.2 hcv
      rw [if_neg hcv]
      have hvdom : val ∈ (σ x).curDom := hsub val (List.mem_cons_self _ _)
      have h1 : ((prune_value σ x val) x).assigned = none := by
        rw [prune_assigned]; exact h
      have h2 : (((prune_value σ x val) x).curDom).Nodup := by
        simp only [prune_value, updState_same]
        exact hndd.erase _
      have h3 : ∀ v ∈ vs, v ∈ ((prune_value σ x val) x).curDom := by
        intro v hv
        simp only [prune_value, updState_same]
        refine (List.mem_erase_of_ne ?_).2 (hsub v (List.mem_cons_of_mem _ hv))
        rintro rfl
        exact hval_vs hv
      have hasg : ∀ y, ((prune_value σ x val) y).assigned = (σ y).assigned :=
        prune_assigned σ x val
      have hprobe : ∀ w, check c (fc_probe_vals (prune_value σ x val) c x w) =
          check c (fc_probe_vals σ c x w) := by
        intro w
        rw [fc_probe_vals_congr hasg]
      have hupd : ∀ s, updState (prune_value σ x val) x s = updState σ x s := by
        intro s
        funext y
        by_cases hy : y = x
        · subst hy; rw [updState_same, updState_same]
        · rw [updState_other _ _ _ hy, updState_other _ _ _ hy,
            prune_value, updState_other _ _ _ hy]
      have hdomeq : (((prune_value σ x val) x).curDom).filter
          (fun v => !(vs.contains v) ||
            check c (fc_probe_vals (prune_value σ x val) c x v)) =
          ((σ x).curDom).filter
          (fun v => !((val :: vs).contains v) || check c (fc_probe_vals σ c x v)) := by
        have hdom_p : ((prune_value σ x val) x).curDom = ((σ x).curDom).erase val := by
          simp [prune_value]
        rw [hdom_p, List.Nodup.erase_eq_filter hndd, List.filter_filter]
        refine List.filter_congr (fun w _ => ?_)
        rw [hprobe w]
        rcases eq_or_ne w val with rfl | hw
        · simp [hcv']
        · simp [List.mem_cons, hw, bne_iff_ne]
      have hfil2 : (vs.filter
          (fun v => !(check c (fc_probe_vals (prune_value σ x val) c x v)))) =
          vs.filter (fun v => !(check c (fc_probe_vals σ c x v))) :=
        List.filter_congr (fun w _ => by rw [hprobe w])
      have hfil3 : (val :: vs).filter
          (fun v => !(check c (fc_probe_vals σ c x v))) =
          val :: vs.filter (fun v => !(check c (fc_probe_vals σ c x v))) := by
        rw [List.filter_cons, if_pos (by simp [hcv'])]
      have hany : (val :: vs).any (fun v => check c (fc_probe_vals σ c x v)) =
          vs.any (fun v => check c (fc_probe_vals (prune_value σ x val) c x v)) := by
        rw [List.any_cons, hcv', Bool.false_or]
        exact (list_any_congr (fun w _ => hprobe w)).symm
      rw [ih (prune_value σ x val) (pr ++ [(x, val)]) flag h1 h2 hvs_nd h3,
        hupd, hdomeq, hfil2, hfil3, hany, List.map_cons, List.append_assoc,
        List.singleton_append]

/-! ## Theorems: prop_FC loop lemmas and claims C5, C7, C10 -/

theorem head_unasgn {σ : State} {c : Cons} {u : Nat} {us : List Nat}
    (hu : get_unasgn_vars σ c = u :: us) : (σ u).assigned = none := by
  have hmem : u ∈ get_unasgn_vars σ c := by rw [hu]; exact List.mem_cons_self _ _
  have := (List.mem_filter.1 hmem).2
  simpa [Option.isNone_iff_eq_none] using this

/-- The imperative probe loop of `prop_FC` computes exactly the declarative
per-pass description of claim C5. -/
theorem fc_loop_eq_spec : ∀ (lst : List Cons) (σ : State) (pr : List (Nat × Nat)),
    WFdoms σ → fc_loop lst σ pr = fc_run_spec lst σ pr := by
  intro lst
  induction lst with
  | nil => intro σ pr _; rfl
  | cons c rest ih =>
    intro σ pr hwf
    simp only [fc_loop, fc_run_spec]
    cases hu : get_unasgn_vars σ c with
    | nil => rfl
    | cons u us =>
      dsimp only
      have hasg : (σ u).assigned = none := head_unasgn hu
      rw [fc_pass_eq c u (cur_domain σ u) σ pr false hasg (hwf u)
        (hwf u) (fun v hv => hv)]
      dsimp only
      have hkeep : ((σ u).curDom).filter
          (fun v => !((cur_domain σ u).contains v) || check c (fc_probe_vals σ c u v)) =
          (cur_domain σ u).filter (fun val => check c (fc_probe_vals σ c u val)) := by
        refine List.filter_congr (fun w hw => ?_)
        have : (cur_domain σ u).contains w = true := by
          simpa [cur_domain] using hw
        rw [this, Bool.not_true, Bool.false_or]
      have hσ2 : updState σ u ⟨((σ u).curDom).filter
          (fun v => !((cur_domain σ u).contains v) || check c (fc_probe_vals σ c u v)),
          none⟩ =
          updState σ u ⟨(cur_domain σ u).filter
            (fun val => check c (fc_probe_vals σ c u val)), (σ u).assigned⟩ := by
        rw [hkeep, hasg]
      rw [hσ2, Bool.false_or]
      by_cases hflag : (cur_domain σ u).any
          (fun val => check c (fc_probe_vals σ c u val)) = true
      · rw [if_pos hflag, if_pos hflag]
        refine ih _ _ ?_
        intro y
        by_cases hy : y = u
        · subst hy
          rw [updState_same]
          exact (hwf y).filter _
        · rw [updState_other _ _ _ hy]
          exact hwf y
      · rw [if_neg hflag, if_neg hflag]

/-- Assignment state survives a whole `fc_loop` run. -/
theorem fc_loop_frame : ∀ (lst : List Cons) (σ : State) (pr : List (Nat × Nat))
    (out : Bool × List (Nat × Nat) × State),
    fc_loop lst σ pr = some out → ∀ y, (out.2.2 y).assigned = (σ y).assigned := by
  intro lst
  induction lst with
  | nil =>
    intro σ pr out heq y
    cases heq
    rfl
  | cons c rest ih =>
    intro σ pr out heq y
    simp only [fc_loop] at heq
    cases hu : get_unasgn_vars σ c with
    | nil => rw [hu] at heq; cases heq
    | cons u us =>
      rw [hu] at heq
      dsimp only at heq
      have hasg : (σ u).assigned = none := head_unasgn hu
      obtain ⟨-, hframe, -⟩ := fc_pass_frame c u (cur_domain σ u) σ pr false hasg
      rcases hp : fc_pass c u (cur_domain σ u) σ pr false with ⟨σ2, pr2, flag⟩
      rw [hp] at heq hframe
      cases flag with
      | false =>
        simp only [Bool.false_eq_true, if_false] at heq
        cases heq
        exact hframe y
      | true =>
        simp only [if_true] at heq
        rw [ih σ2 pr2 out heq y]
        exact hframe y

/-- `fc_loop` completes whenever every listed constraint keeps at least one
unassigned scope variable. -/
theorem fc_loop_ne_none : ∀ (lst : List Cons) (σ : State) (pr : List (Nat × Nat)),
    (∀ c ∈ lst, get_unasgn_vars σ c ≠ []) → fc_loop lst σ pr ≠ none := by
  intro lst
  induction lst with
  | nil => intro σ pr _ h; cases h
  | cons c rest ih =>
    intro σ pr hlst
    simp only [fc_loop]
    cases hu : get_unasgn_vars σ c with
    | nil => exact absurd hu (hlst c (List.mem_cons_self _ _))
    | cons u us =>
      dsimp only
      have hasg : (σ u).assigned = none := head_unasgn hu
      obtain ⟨-, hframe, -⟩ := fc_pass_frame c u (cur_domain σ u) σ pr false hasg
      rcases hp : fc_pass c u (cur_domain σ u) σ pr false with ⟨σ2, pr2, flag⟩
      rw [hp] at hframe
      cases flag with
      | false => simp
      | true =>
        simp only [if_true]
        refine ih σ2 pr2 (fun d hd => ?_)
        rw [get_unasgn_vars_congr hframe]
        exact hlst d (List.mem_cons_of_mem _ hd)

/-- Pruning within one pass keeps the accounting invariant. -/
theorem fc_pass_acc (c : Cons) (x : Nat) {σ0 : State} (hwf0 : WFdoms σ0) :
    ∀ (vals : List Nat) (σ : State) (pr : List (Nat × Nat)) (flag : Bool),
    (σ x).assigned = none → vals.Nodup → (∀ v ∈ vals, v ∈ (σ x).curDom) →
    PruneAcc σ0 σ pr →
    PruneAcc σ0 (fc_pass c x vals σ pr flag).1 (fc_pass c x vals σ pr flag).2.1 := by
  intro vals
  induction vals with
  | nil => intro σ pr flag _ _ _ hacc; exact hacc
  | cons val vs ih =>
    intro σ pr flag h hndv hsub hacc
    have hvs_nd : vs.Nodup := hndv.of_cons
    have hval_vs : val ∉ vs := (List.nodup_cons.1 hndv).1
    rw [fc_pass_cons h]
    by_cases hcv : check c (fc_probe_vals σ c x val) = true
    · rw [if_pos hcv]
      exact ih σ pr true h hvs_nd (fun v hv => hsub v (List.mem_cons_of_mem _ hv)) hacc
    · rw [if_neg hcv]
      have hvdom : val ∈ (σ x).curDom := hsub val (List.mem_cons_self _ _)
      have h1 : ((prune_value σ x val) x).assigned = none := by
        rw [prune_assigned]; exact h
      have h3 : ∀ v ∈ vs, v ∈ ((prune_value σ x val) x).curDom := by
        intro v hv
        simp only [prune_value, updState_same]
        refine (List.mem_erase_of_ne ?_).2 (hsub v (List.mem_cons_of_mem _ hv))
        rintro rfl
        exact hval_vs hv
      exact ih (prune_value σ x val) (pr ++ [(x, val)]) flag h1 hvs_nd h3
        (PruneAcc_step hwf0 hacc hvdom)

/-- A whole `fc_loop` run keeps the accounting invariant. -/
theorem fc_loop_acc {σ0 : State} (hwf0 : WFdoms σ0) :
    ∀ (lst : List Cons) (σ : State) (pr : List (Nat × Nat))
    (out : Bool × List (Nat × Nat) × State),
    PruneAcc σ0 σ pr → fc_loop lst σ pr = some out →
    PruneAcc σ0 out.2.2 out.2.1 := by
  intro lst
  induction lst with
  | nil =>
    intro σ pr out hacc heq
    cases heq
    exact hacc
  | cons c rest ih =>
    intro σ pr out hacc heq
    simp only [fc_loop] at heq
    cases hu : get_unasgn_vars σ c with
    | nil => rw [hu] at heq; cases heq
    | cons u us =>
      rw [hu] at heq
      dsimp only at heq
      have hasg : (σ u).assigned = none := head_unasgn hu
      have hnd : ((σ u).curDom).Nodup := PruneAcc_wf hwf0 hacc u
      have hpass := fc_pass_acc c u hwf0 (cur_domain σ u) σ pr false hasg hnd
        (fun v hv => hv) hacc
      rcases hp : fc_pass c u (cur_domain σ u) σ pr false with ⟨σ2, pr2, flag⟩
      rw [hp] at heq hpass
      cases flag with
      | false =>
        simp only [Bool.false_eq_true, if_false] at heq
        cases heq
        exact hpass
      | true =>
        simp only [if_true] at heq
        exact ih σ2 pr2 out hpass heq

/-- Claim C5: `prop_FC` collects the unary constraints (no new variable) or
the constraints containing the new variable with exactly one unassigned scope
member; each collected constraint's pass prunes from its single unassigned
variable exactly the values whose full scope tuple fails `check`, and the call
fails — with the prunes accumulated so far — exactly when a processed
constraint's pass leaves zero surviving values, succeeding otherwise with the
accumulated prune list (the declarative description `fc_run_spec`). -/
theorem claim_C5_prop_FC (csp : CSPm) (σ : State) (newVar : Option Nat)
    (hwf : WFdoms σ) :
    prop_FC csp σ newVar =
      fc_run_spec (match newVar with
        | none => csp.cons.filter (fun c => c.scope.length == 1)
        | some v => (get_cons_with_var csp v).filter (fun c => get_n_unasgn σ c == 1))
        σ [] := by
  cases newVar with
  | none => exact fc_loop_eq_spec _ σ [] hwf
  | some v => exact fc_loop_eq_spec _ σ [] hwf

/-- Claim C7: every tentative assign of `prop_FC` is paired with an unassign
before the call returns, so the assigned-value state of every variable after a
completed call equals its state before the call (also on the early failure
return). -/
theorem claim_C7_fc_assigned_frame (csp : CSPm) (σ : State) (newVar : Option Nat)
    (out : Bool × List (Nat × Nat) × State) (h : prop_FC csp σ newVar = some out) :
    ∀ y, (out.2.2 y).assigned = (σ y).assigned :=
  fc_loop_frame (fc_collect csp σ newVar) σ [] out h

/-- Claim C10: the index access `con.get_unasgn_vars()[0]` is in bounds for
every collected constraint — automatically in the `newVar` case (only
constraints with exactly one unassigned variable are collected), and in the
`newVar = None` case provided no unary constraint's scope variable is already
assigned; without that precondition a unary constraint with an assigned
variable makes the access out of bounds (the `none` result). -/
theorem claim_C10_fc_index_safety :
    (∀ (csp : CSPm) (σ : State) (v : Nat), prop_FC csp σ (some v) ≠ none) ∧
    (∀ (csp : CSPm) (σ : State),
      (∀ c ∈ csp.cons, c.scope.length = 1 → ∀ y ∈ c.scope, (σ y).assigned = none) →
      prop_FC csp σ none ≠ none) ∧
    prop_FC fcCrashCSP fcCrashState none = none := by
  refine ⟨?_, ?_, rfl⟩
  · intro csp σ v
    refine fc_loop_ne_none _ σ [] (fun c hc => ?_)
    have h1 : get_n_unasgn σ c = 1 := by
      have := (List.mem_filter.1 hc).2
      simpa using this
    intro hnil
    rw [get_n_unasgn, hnil] at h1
    cases h1
  · intro csp σ h
    refine fc_loop_ne_none _ σ [] (fun c hc => ?_)
    have hmem : c ∈ csp.cons := (List.mem_filter.1 hc).1
    have hlen : c.scope.length = 1 := by
      have := (List.mem_filter.1 hc).2
      simpa using this
    obtain ⟨y, hy⟩ := List.length_eq_one.1 hlen
    have hya : (σ y).assigned = none :=
      h c hmem hlen y (by rw [hy]; exact List.mem_cons_self _ _)
    rw [get_unasgn_vars, hy]
    simp [hya]

/-! ## Theorems: prop_GAC frame lemmas (claim C8) -/

/-- The inner value loop only prunes: assignments survive and domains only
shrink. -/
theorem gac_revise_vals_mono (csp : CSPm) (c : Cons) (x : Nat) :
    ∀ (vals : List Nat) (σ : State) (que : List Cons) (pr : List (Nat × Nat)),
    (∀ y, ((revise_state (gac_revise_vals csp c x vals σ que pr)) y).assigned =
      (σ y).assigned) ∧
    (∀ y v, v ∈ ((revise_state (gac_revise_vals csp c x vals σ que pr)) y).curDom →
      v ∈ (σ y).curDom) := by
  intro vals
  induction vals with
  | nil => intro σ que pr; exact ⟨fun y => rfl, fun y v hv => hv⟩
  | cons v vs ih =>
    intro σ que pr
    simp only [gac_revise_vals]
    by_cases hs : has_support σ c x v = true
    · rw [if_pos hs]
      exact ih σ que pr
    · rw [if_neg hs]
      have hstep : ∀ y, ((prune_value σ x v) y).assigned = (σ y).assigned :=
        prune_assigned σ x v
      have hstep2 : ∀ y w, w ∈ ((prune_value σ x v) y).curDom → w ∈ (σ y).curDom := by
        intro y w hw
        by_cases hy : y = x
        · subst hy
          simp only [prune_value, updState_same] at hw
          exact List.erase_subset _ _ hw
        · rw [prune_value, updState_other _ _ _ hy] at hw
          exact hw
      by_cases hdwo : cur_domain (prune_value σ x v) x = []
      · rw [if_pos hdwo]
        exact ⟨hstep, hstep2⟩
      · rw [if_neg hdwo]
        obtain ⟨ha, hd⟩ := ih (prune_value σ x v)
          (enqueue_new (get_cons_with_var csp x) que) (pr ++ [(x, v)])
        exact ⟨fun y => (ha y).trans (hstep y),
          fun y w hw => hstep2 y w (hd y w hw)⟩

theorem gac_revise_scope_mono (csp : CSPm) (c : Cons) :
    ∀ (xs : List Nat) (σ : State) (que : List Cons) (pr : List (Nat × Nat)),
    (∀ y, ((revise_state (gac_revise_scope csp c xs σ que pr)) y).assigned =
      (σ y).assigned) ∧
    (∀ y v, v ∈ ((revise_state (gac_revise_scope csp c xs σ que pr)) y).curDom →
      v ∈ (σ y).curDom) := by
  intro xs
  induction xs with
  | nil => intro σ que pr; exact ⟨fun y => rfl, fun y v hv => hv⟩
  | cons x xs ih =>
    intro σ que pr
    simp only [gac_revise_scope]
    obtain ⟨ha, hd⟩ := gac_revise_vals_mono csp c x (cur_domain σ x) σ que pr
    cases hv : gac_revise_vals csp c x (cur_domain σ x) σ que pr with
    | inl tri =>
      rcases tri with ⟨σ2, que2, pr2⟩
      rw [hv] at ha hd
      obtain ⟨ha2, hd2⟩ := ih σ2 que2 pr2
      exact ⟨fun y => (ha2 y).trans (ha y), fun y w hw => hd y w (hd2 y w hw)⟩
    | inr s =>
      rw [hv] at ha hd
      exact ⟨ha, hd⟩

theorem gac_loop_mono (csp : CSPm) : ∀ (fuel : Nat) (que : List Cons) (σ : State)
    (pr : List (Nat × Nat)) (r : GacResult),
    gac_loop csp fuel que σ pr = some r →
    (∀ y, (r.state y).assigned = (σ y).assigned) ∧
    (∀ y v, v ∈ (r.state y).curDom → v ∈ (σ y).curDom) := by
  intro fuel
  induction fuel with
  | zero => intro que σ pr r heq; cases heq
  | succ fuel ih =>
    intro que σ pr r heq
    cases que with
    | nil =>
      cases heq
      exact ⟨fun y => rfl, fun y v hv => hv⟩
    | cons curr rest =>
      simp only [gac_loop] at heq
      obtain ⟨ha, hd⟩ := gac_revise_scope_mono csp curr curr.scope σ rest pr
      cases hv : gac_revise_scope csp curr curr.scope σ rest pr with
      | inl tri =>
        rcases tri with ⟨σ2, que2, pr2⟩
        rw [hv] at ha hd heq
        obtain ⟨ha2, hd2⟩ := ih que2 σ2 pr2 r heq
        exact ⟨fun y => (ha2 y).trans (ha y), fun y w hw => hd y w (hd2 y w hw)⟩
      | inr s =>
        rcases s with ⟨σ2, pr2⟩
        rw [hv] at ha hd heq
        cases heq
        exact ⟨ha, hd⟩

/-- Claim C8: a `prop_GAC` call mutates only current domains.  In this
embedding the CSP (its constraint sequence, variable set and satisfying-tuple
tables) is immutable data the propagator cannot write to — per spec §4.3/§6
the worklist is a value listing, so `que.pop(0)` does not touch the CSP — and
the per-variable mutable state keeps every assigned value, domains only ever
shrinking. -/
theorem claim_C8_gac_frame (csp : CSPm) (σ : State) (newVar : Option Nat)
    (r : GacResult) (h : prop_GAC csp σ newVar = some r) :
    (∀ y, (r.state y).assigned = (σ y).assigned) ∧
    (∀ y v, v ∈ (r.state y).curDom → v ∈ (σ y).curDom) := by
  cases newVar with
  | none => exact gac_loop_mono csp _ _ σ [] r h
  | some v => exact gac_loop_mono csp _ _ σ [] r h

/-! ## Theorems: the GAC revision invariant (claim C1) -/

/-- Invariant facts about one variable's value loop, on the non-DWO outcome:
the worklist is only appended to (with constraints of the CSP); only `x`'s
state can change and its domain never grows; and either nothing was pruned —
in which case state, worklist and prune list are untouched and every examined
value had support — or `x`'s domain strictly shrank and every constraint of
the CSP containing `x` is on the outgoing worklist. -/
theorem gac_revise_vals_inv (csp : CSPm) (c : Cons) (x : Nat) :
    ∀ (vals : List Nat) (σ : State) (que : List Cons) (pr : List (Nat × Nat))
      (σ' : State) (que' : List Cons) (pr' : List (Nat × Nat)),
    (∀ w, vals.count w ≤ ((σ x).curDom).count w) →
    gac_revise_vals csp c x vals σ que pr = Sum.inl (σ', que', pr') →
    (∃ ext, que' = que ++ ext ∧ ∀ d ∈ ext, d ∈ csp.cons) ∧
    (∀ y, y ≠ x → σ' y = σ y) ∧
    ((σ' x).curDom).length ≤ ((σ x).curDom).length ∧
    ((σ' = σ ∧ que' = que ∧ pr' = pr ∧ ∀ w ∈ vals, has_support σ c x w = true) ∨
     (((σ' x).curDom).length < ((σ x).curDom).length ∧
       ∀ d ∈ csp.cons, x ∈ d.scope → d ∈ que')) := by
  intro vals
  induction vals with
  | nil =>
    intro σ que pr σ' que' pr' _ heq
    simp only [gac_revise_vals] at heq
    injection heq with h
    rw [Prod.mk.injEq, Prod.mk.injEq] at h
    obtain ⟨rfl, rfl, rfl⟩ := h
    exact ⟨⟨[], by simp, by simp⟩, fun y _ => rfl, le_refl _,
      Or.inl ⟨rfl, rfl, rfl, by simp⟩⟩
  | cons v vs ih =>
    intro σ que pr σ' que' pr' hcount heq
    simp only [gac_revise_vals] at heq
    by_cases hs : has_support σ c x v = true
    · rw [if_pos hs] at heq
      have hcount' : ∀ w, vs.count w ≤ ((σ x).curDom).count w := by
        intro w
        refine le_trans ?_ (hcount w)
        rw [List.count_cons]
        omega
      obtain ⟨hext, hframe, hlen, hdich⟩ := ih σ que pr σ' que' pr' hcount' heq
      refine ⟨hext, hframe, hlen, ?_⟩
      rcases hdich with ⟨h1, h2, h3, h4⟩ | hr
      · refine Or.inl ⟨h1, h2, h3, fun w hw => ?_⟩
        rcases List.mem_cons.1 hw with rfl | hw'
        · exact hs
        · exact h4 w hw'
      · exact Or.inr hr
    · rw [if_neg hs] at heq
      have hvmem : v ∈ (σ x).curDom := by
        refine List.count_pos_iff.mp (lt_of_lt_of_le ?_ (hcount v))
        rw [List.count_cons_self]
        omega
      have hd2 : ((prune_value σ x v) x).curDom = ((σ x).curDom).erase v := by
        simp [prune_value]
      by_cases hdwo : cur_domain (prune_value σ x v) x = []
      · rw [if_pos hdwo] at heq
        simp at heq
      · rw [if_neg hdwo] at heq
        have hcount2 : ∀ w, vs.count w ≤ (((prune_value σ x v) x).curDom).count w := by
          intro w
          rw [hd2]
          rcases eq_or_ne w v with rfl | hw
          · rw [List.count_erase_self]
            have := hcount w
            rw [List.count_cons_self] at this
            omega
          · rw [List.count_erase_of_ne hw]
            have := hcount w
            rw [List.count_cons, if_neg (by simp [Ne.symm hw])] at this
            omega
        obtain ⟨⟨ext2, hq2, hsub2⟩, hframe2, hlen2, hdich2⟩ :=
          ih (prune_value σ x v) (enqueue_new (get_cons_with_var csp x) que)
            (pr ++ [(x, v)]) σ' que' pr' hcount2 heq
        obtain ⟨ext0, hq0, hnd0, hiff0⟩ := enqueue_new_spec (get_cons_with_var csp x) que
        have hlenv : (((prune_value σ x v) x).curDom).length < ((σ x).curDom).length := by
          rw [hd2, List.length_erase_of_mem hvmem]
          have : 0 < ((σ x).curDom).length :=
            List.length_pos.2 (List.ne_nil_of_mem hvmem)
          omega
        refine ⟨⟨ext0 ++ ext2, ?_, ?_⟩, ?_, ?_, ?_⟩
        · rw [hq2, hq0, List.append_assoc]
        · intro d hd
          rcases List.mem_append.1 hd with hd' | hd'
          · exact (List.mem_filter.1 ((hiff0 d).1 hd').1).1
          · exact hsub2 d hd'
        · intro y hy
          rw [hframe2 y hy, prune_value, updState_other _ _ _ hy]
        · exact le_trans hlen2 (le_of_lt hlenv)
        · refine Or.inr ⟨lt_of_le_of_lt hlen2 hlenv, ?_⟩
          intro d hd hdx
          have hdcs : d ∈ get_cons_with_var csp x :=
            List.mem_filter.2 ⟨hd, by simpa using hdx⟩
          have hdq2 : d ∈ enqueue_new (get_cons_with_var csp x) que :=
            mem_enqueue_new_of_mem _ hdcs
          rw [hq2]
          exact List.mem_append_left _ hdq2

/-- Invariant facts about one constraint's scope revision, on the non-DWO
outcome: the worklist is only appended to; any variable whose state changed is
one of the revised scope variables and every CSP constraint containing it is
on the outgoing worklist; domains never grow; and if no state changed at all,
the worklist is unchanged and every revised variable's current values all have
support. -/
theorem gac_revise_scope_inv (csp : CSPm) (c : Cons) :
    ∀ (xs : List Nat) (σ : State) (que : List Cons) (pr : List (Nat × Nat))
      (σ' : State) (que' : List Cons) (pr' : List (Nat × Nat)),
    gac_revise_scope csp c xs σ que pr = Sum.inl (σ', que', pr') →
    (∃ ext, que' = que ++ ext ∧ ∀ d ∈ ext, d ∈ csp.cons) ∧
    (∀ y, σ' y ≠ σ y → (y ∈ xs ∧ ∀ d ∈ csp.cons, y ∈ d.scope → d ∈ que')) ∧
    (∀ y, ((σ' y).curDom).length ≤ ((σ y).curDom).length) ∧
    ((∀ y, σ' y = σ y) → que' = que ∧
      ∀ x ∈ xs, ∀ w ∈ cur_domain σ x, has_support σ c x w = true) := by
  intro xs
  induction xs with
  | nil =>
    intro σ que pr σ' que' pr' heq
    simp only [gac_revise_scope] at heq
    injection heq with h
    rw [Prod.mk.injEq, Prod.mk.injEq] at h
    obtain ⟨rfl, rfl, rfl⟩ := h
    exact ⟨⟨[], by simp, by simp⟩, fun y hy => absurd rfl hy, fun y => le_refl _,
      fun _ => ⟨rfl, by simp⟩⟩
  | cons x xs ih =>
    intro σ que pr σ' que' pr' heq
    simp only [gac_revise_scope] at heq
    cases hv : gac_revise_vals csp c x (cur_domain σ x) σ que pr with
    | inr s =>
      rw [hv] at heq
      simp at heq
    | inl tri =>
      rcases tri with ⟨σ1, que1, pr1⟩
      rw [hv] at heq
      dsimp only at heq
      obtain ⟨⟨ext1, hq1, hsub1⟩, hframe1, hlen1, hdich1⟩ :=
        gac_revise_vals_inv csp c x (cur_domain σ x) σ que pr σ1 que1 pr1
          (fun w => le_refl _) hv
      obtain ⟨⟨ext2, hq2, hsub2⟩, hchanged2, hlen2, hnochange2⟩ :=
        ih σ1 que1 pr1 σ' que' pr' heq
      have hquesub : ∀ d ∈ que1, d ∈ que' := by
        intro d hd
        rw [hq2]
        exact List.mem_append_left _ hd
      refine ⟨⟨ext1 ++ ext2, ?_, ?_⟩, ?_, ?_, ?_⟩
      · rw [hq2, hq1, List.append_assoc]
      · intro d hd
        rcases List.mem_append.1 hd with hd' | hd'
        · exact hsub1 d hd'
        · exact hsub2 d hd'
      · intro y hy
        by_cases h1 : σ' y = σ1 y
        · rw [h1] at hy
          have hyx : y = x := by
            by_contra hne
            exact hy (hframe1 y hne)
          subst hyx
          rcases hdich1 with ⟨hσeq, -, -, -⟩ | ⟨-, hque⟩
          · exact absurd (congrFun hσeq y) hy
          · exact ⟨List.mem_cons_self _ _, fun d hd hdy => hquesub d (hque d hd hdy)⟩
        · obtain ⟨hmem, hque⟩ := hchanged2 y h1
          exact ⟨List.mem_cons_of_mem _ hmem, hque⟩
      · intro y
        refine le_trans (hlen2 y) ?_
        by_cases hyx : y = x
        · subst hyx; exact hlen1
        · rw [hframe1 y hyx]
      · intro hall
        have hσ1eq : ∀ y, σ1 y = σ y := by
          intro y
          by_cases hyx : y = x
          · subst hyx
            rcases hdich1 with ⟨hσeq, -, -, -⟩ | ⟨hstrict, -⟩
            · exact congrFun hσeq y
            · exfalso
              have h1 := hlen2 y
              rw [hall y] at h1
              omega
          · exact hframe1 y hyx
        have hσ1 : σ1 = σ := funext hσ1eq
        rcases hdich1 with ⟨-, hq, -, hsupp⟩ | ⟨hstrict, -⟩
        · subst hσ1
          obtain ⟨hq', hsupp'⟩ := hnochange2 hall
          refine ⟨hq'.trans hq, fun z hz w hw => ?_⟩
          rcases List.mem_cons.1 hz with rfl | hz'
          · exact hsupp w hw
          · exact hsupp' z hz' w hw
        · exfalso
          rw [hσ1eq x] at hstrict
          omega

theorem gac_loop_fixed (csp : CSPm) : ∀ (fuel : Nat) (que : List Cons) (σ : State)
    (pr : List (Nat × Nat)) (r : GacResult),
    (∀ d ∈ que, d ∈ csp.cons) → queue_inv csp σ que →
    gac_loop csp fuel que σ pr = some r → r.ok = true →
    ∀ d ∈ csp.cons, ∀ x ∈ d.scope, ∀ w ∈ cur_domain r.state x,
      has_support r.state d x w = true := by
  intro fuel
  induction fuel with
  | zero => intro que σ pr r _ _ heq; cases heq
  | succ fuel ih =>
    intro que σ pr r hsub hinv heq hok
    cases que with
    | nil =>
      cases heq
      exact fun d hd => hinv d hd (List.not_mem_nil d)
    | cons curr rest =>
      simp only [gac_loop] at heq
      cases hv : gac_revise_scope csp curr curr.scope σ rest pr with
      | inr s =>
        rcases s with ⟨σ2, pr2⟩
        rw [hv] at heq
        cases heq
        cases hok
      | inl tri =>
        rcases tri with ⟨σ2, que2, pr2⟩
        rw [hv] at heq
        obtain ⟨⟨ext, hq, hext⟩, hchanged, hlen, hnochange⟩ :=
          gac_revise_scope_inv csp curr curr.scope σ rest pr σ2 que2 pr2 hv
        have hcurr : curr ∈ csp.cons := hsub curr (List.mem_cons_self _ _)
        have hsub2 : ∀ d ∈ que2, d ∈ csp.cons := by
          intro d hd
          rw [hq] at hd
          rcases List.mem_append.1 hd with hd' | hd'
          · exact hsub d (List.mem_cons_of_mem _ hd')
          · exact hext d hd'
        have hinv2 : queue_inv csp σ2 que2 := by
          intro d hd hdq x hx w hw
          have hstable : ∀ y ∈ d.scope, σ2 y = σ y := by
            intro y hy
            by_contra hne
            exact hdq ((hchanged y hne).2 d hd hy)
          rcases eq_or_ne d curr with rfl | hne
          · have hσeq : ∀ y, σ2 y = σ y := by
              intro y
              by_contra hne'
              obtain ⟨hyx, hque⟩ := hchanged y hne'
              exact hdq (hque d hd hyx)
            obtain ⟨-, hsupp⟩ := hnochange hσeq
            have hσ2 : σ2 = σ := funext hσeq
            rw [hσ2]
            rw [hσ2] at hw
            exact hsupp x hx w hw
          · have hdrest : d ∉ rest := by
              intro hd'
              exact hdq (by rw [hq]; exact List.mem_append_left _ hd')
            have hdque : d ∉ curr :: rest := by
              intro hd'
              rcases List.mem_cons.1 hd' with h' | h'
              · exact hne h'
              · exact hdrest h'
            have hx2 : cur_domain σ2 x = cur_domain σ x := by
              unfold cur_domain
              rw [hstable x hx]
            rw [has_support_congr hstable]
            rw [hx2] at hw
            exact hinv d hd hdque x hx w hw
        exact ih que2 σ2 pr2 r hsub2 hinv2 heq hok

/-- Claim C1: if `prop_GAC`, called with no newly-assigned variable, completes
with success flag `True`, then every value remaining in the current domain of
every scope variable of every constraint of the CSP has support under that
constraint — a GAC fixed point. -/
theorem claim_C1_gac_soundness (csp : CSPm) (σ : State) (r : GacResult)
    (h : prop_GAC csp σ none = some r) (hok : r.ok = true) :
    ∀ c ∈ csp.cons, ∀ x ∈ c.scope, ∀ w ∈ cur_domain r.state x,
      has_support r.state c x w = true :=
  gac_loop_fixed csp (gac_fuel csp σ) csp.cons σ [] r (fun d hd => hd)
    (fun d hd hnot => absurd hd hnot) h hok

/-! ## Theorems: worklist duplicate-freedom (claim C3) -/

theorem gac_revise_vals_nodup (csp : CSPm) (c : Cons) (x : Nat) :
    ∀ (vals : List Nat) (σ : State) (que : List Cons) (pr : List (Nat × Nat))
      (σ' : State) (que' : List Cons) (pr' : List (Nat × Nat)),
    que.Nodup → gac_revise_vals csp c x vals σ que pr = Sum.inl (σ', que', pr') →
    que'.Nodup := by
  intro vals
  induction vals with
  | nil =>
    intro σ que pr σ' que' pr' hnd heq
    simp only [gac_revise_vals] at heq
    injection heq with h
    rw [Prod.mk.injEq, Prod.mk.injEq] at h
    obtain ⟨-, rfl, -⟩ := h
    exact hnd
  | cons v vs ih =>
    intro σ que pr σ' que' pr' hnd heq
    simp only [gac_revise_vals] at heq
    by_cases hs : has_support σ c x v = true
    · rw [if_pos hs] at heq
      exact ih σ que pr σ' que' pr' hnd heq
    · rw [if_neg hs] at heq
      by_cases hdwo : cur_domain (prune_value σ x v) x = []
      · rw [if_pos hdwo] at heq
        simp at heq
      · rw [if_neg hdwo] at heq
        exact ih (prune_value σ x v) _ (pr ++ [(x, v)]) σ' que' pr'
          (enqueue_new_nodup _ hnd) heq

theorem gac_revise_scope_nodup (csp : CSPm) (c : Cons) :
    ∀ (xs : List Nat) (σ : State) (que : List Cons) (pr : List (Nat × Nat))
      (σ' : State) (que' : List Cons) (pr' : List (Nat × Nat)),
    que.Nodup → gac_revise_scope csp c xs σ que pr = Sum.inl (σ', que', pr') →
    que'.Nodup := by
  intro xs
  induction xs with
  | nil =>
    intro σ que pr σ' que' pr' hnd heq
    simp only [gac_revise_scope] at heq
    injection heq with h
    rw [Prod.mk.injEq, Prod.mk.injEq] at h
    obtain ⟨-, rfl, -⟩ := h
    exact hnd
  | cons x xs ih =>
    intro σ que pr σ' que' pr' hnd heq
    simp only [gac_revise_scope] at heq
    cases hv : gac_revise_vals csp c x (cur_domain σ x) σ que pr with
    | inr s =>
      rw [hv] at heq
      simp at heq
    | inl tri =>
      rcases tri with ⟨σ1, que1, pr1⟩
      rw [hv] at heq
      dsimp only at heq
      exact ih σ1 que1 pr1 σ' que' pr'
        (gac_revise_vals_nodup csp c x (cur_domain σ x) σ que pr σ1 que1 pr1 hnd hv)
        heq

/-- Claim C3: the worklist of `prop_GAC` is FIFO — the loop always processes
the front of the worklist (`que.pop(0)`), and `enqueue_new` appends, behind
the untouched existing worklist and in offer order, exactly those constraints
not already present (so, from a duplicate-free worklist, every worklist
arising during the call is duplicate-free; the initial worklists are
membership filters, so they are duplicate-free whenever the CSP's constraint
list is).  As a pure function of its inputs, the processing order is
deterministic given the constraint iteration order. -/
theorem claim_C3_gac_worklist :
    (∀ (csp : CSPm) (fuel : Nat) (curr : Cons) (rest : List Cons) (σ : State)
      (pr : List (Nat × Nat)),
      gac_loop csp (fuel + 1) (curr :: rest) σ pr =
        match gac_revise_scope csp curr curr.scope σ rest pr with
        | Sum.inl (σ2, que2, pr2) => gac_loop csp fuel que2 σ2 pr2
        | Sum.inr (σ2, pr2) => some ⟨false, pr2, σ2⟩) ∧
    (∀ (cs que : List Cons), ∃ ext, enqueue_new cs que = que ++ ext ∧
      ext.Nodup ∧ (∀ d, d ∈ ext ↔ (d ∈ cs ∧ d ∉ que))) ∧
    (∀ (csp : CSPm) (c : Cons) (xs : List Nat) (σ : State) (que : List Cons)
      (pr : List (Nat × Nat)) (σ' : State) (que' : List Cons)
      (pr' : List (Nat × Nat)), que.Nodup →
      gac_revise_scope csp c xs σ que pr = Sum.inl (σ', que', pr') → que'.Nodup) ∧
    (∀ (csp : CSPm) (x : Nat), csp.cons.Nodup → (get_cons_with_var csp x).Nodup) :=
  ⟨fun csp fuel curr rest σ pr => rfl, enqueue_new_spec, gac_revise_scope_nodup,
    fun csp x h => h.filter _⟩

/-! ## Theorems: GAC pruning accounting (claim C4) -/

theorem gac_revise_vals_acc (csp : CSPm) (c : Cons) (x : Nat) {σ0 : State}
    (hwf0 : WFdoms σ0) :
    ∀ (vals : List Nat) (σ : State) (que : List Cons) (pr : List (Nat × Nat)),
    (∀ w, vals.count w ≤ ((σ x).curDom).count w) → PruneAcc σ0 σ pr →
    PruneAcc σ0 (revise_state (gac_revise_vals csp c x vals σ que pr))
      (revise_prunes (gac_revise_vals csp c x vals σ que pr)) := by
  intro vals
  induction vals with
  | nil => intro σ que pr _ hacc; exact hacc
  | cons v vs ih =>
    intro σ que pr hcount hacc
    simp only [gac_revise_vals]
    by_cases hs : has_support σ c x v = true
    · rw [if_pos hs]
      refine ih σ que pr (fun w => ?_) hacc
      refine le_trans ?_ (hcount w)
      rw [List.count_cons]
      omega
    · rw [if_neg hs]
      have hvmem : v ∈ (σ x).curDom := by
        refine List.count_pos_iff.mp (lt_of_lt_of_le ?_ (hcount v))
        rw [List.count_cons_self]
        omega
      have hstep : PruneAcc σ0 (prune_value σ x v) (pr ++ [(x, v)]) :=
        PruneAcc_step hwf0 hacc hvmem
      have hd2 : ((prune_value σ x v) x).curDom = ((σ x).curDom).erase v := by
        simp [prune_value]
      by_cases hdwo : cur_domain (prune_value σ x v) x = []
      · rw [if_pos hdwo]
        exact hstep
      · rw [if_neg hdwo]
        refine ih (prune_value σ x v) _ (pr ++ [(x, v)]) (fun w => ?_) hstep
        rw [hd2]
        rcases eq_or_ne w v with rfl | hw
        · rw [List.count_erase_self]
          have := hcount w
          rw [List.count_cons_self] at this
          omega
        · rw [List.count_erase_of_ne hw]
          have := hcount w
          rw [List.count_cons, if_neg (by simp [Ne.symm hw])] at this
          omega

theorem gac_revise_scope_acc (csp : CSPm) (c : Cons) {σ0 : State}
    (hwf0 : WFdoms σ0) :
    ∀ (xs : List Nat) (σ : State) (que : List Cons) (pr : List (Nat × Nat)),
    PruneAcc σ0 σ pr →
    PruneAcc σ0 (revise_state (gac_revise_scope csp c xs σ que pr))
      (revise_prunes (gac_revise_scope csp c xs σ que pr)) := by
  intro xs
  induction xs with
  | nil => intro σ que pr hacc; exact hacc
  | cons x xs ih =>
    intro σ que pr hacc
    simp only [gac_revise_scope]
    have hvals := gac_revise_vals_acc csp c x hwf0 (cur_domain σ x) σ que pr
      (fun w => le_refl _) hacc
    cases hv : gac_revise_vals csp c x (cur_domain σ x) σ que pr with
    | inl tri =>
      rcases tri with ⟨σ1, que1, pr1⟩
      rw [hv] at hvals
      exact ih σ1 que1 pr1 hvals
    | inr s =>
      rw [hv] at hvals
      exact hvals

theorem gac_loop_acc (csp : CSPm) {σ0 : State} (hwf0 : WFdoms σ0) :
    ∀ (fuel : Nat) (que : List Cons) (σ : State) (pr : List (Nat × Nat))
      (r : GacResult),
    PruneAcc σ0 σ pr → gac_loop csp fuel que σ pr = some r →
    PruneAcc σ0 r.state r.prunes := by
  intro fuel
  induction fuel with
  | zero => intro que σ pr r _ heq; cases heq
  | succ fuel ih =>
    intro que σ pr r hacc heq
    cases que with
    | nil =>
      cases heq
      exact hacc
    | cons curr rest =>
      simp only [gac_loop] at heq
      have hrev := gac_revise_scope_acc csp curr hwf0 curr.scope σ rest pr hacc
      cases hv : gac_revise_scope csp curr curr.scope σ rest pr with
      | inl tri =>
        rcases tri with ⟨σ2, que2, pr2⟩
        rw [hv] at heq hrev
        exact ih que2 σ2 pr2 r hrev heq
      | inr s =>
        rcases s with ⟨σ2, pr2⟩
        rw [hv] at heq hrev
        cases heq
        exact hrev

/-- Claim C4: for every single completed call of `prop_BT`, `prop_FC` or
`prop_GAC` (from duplicate-free domains), the returned prune list has no
repeated (variable, value) pair, every listed pair's value was in that
variable's current domain at call entry (and, the lists being exact removal
logs, still present immediately before its single removal), and each
variable's final current domain is exactly its initial one minus the pairs
listed for it — the list is exactly the set of removals performed
(`PruneAcc`). -/
theorem claim_C4_prune_lists :
    (∀ (csp : CSPm) (σ : State) (newVar : Option Nat),
      (prop_BT csp σ newVar).2 = []) ∧
    (∀ (csp : CSPm) (σ : State) (newVar : Option Nat)
      (out : Bool × List (Nat × Nat) × State), WFdoms σ →
      prop_FC csp σ newVar = some out → PruneAcc σ out.2.2 out.2.1) ∧
    (∀ (csp : CSPm) (σ : State) (newVar : Option Nat) (r : GacResult),
      WFdoms σ → prop_GAC csp σ newVar = some r → PruneAcc σ r.state r.prunes) := by
  refine ⟨?_, ?_, ?_⟩
  · intro csp σ nv
    cases nv <;> rfl
  · intro csp σ nv out hwf h
    exact fc_loop_acc hwf _ σ [] out (PruneAcc_refl σ) h
  · intro csp σ nv r hwf h
    cases nv with
    | none => exact gac_loop_acc csp hwf _ _ σ [] r (PruneAcc_refl σ) h
    | some v => exact gac_loop_acc csp hwf _ _ σ [] r (PruneAcc_refl σ) h

/-! ## Theorems: concrete scenarios (claim C2) and the model (claim C9) -/

theorem dwoState_wf : WFdoms dwoState := by
  intro x
  by_cases h0 : x = 0 <;> by_cases h1 : x = 1 <;> simp [dwoState, h0, h1]

theorem fcState_wf : WFdoms fcState := by
  intro x
  by_cases h0 : x = 0 <;> by_cases h1 : x = 1 <;> simp [fcState, h0, h1]

/-- Counterexample to claim C2 as stated: on the scenario CSP (scope (A, B),
tuples {(1, 2)}, domains A = {1}, B = {3}), `prop_GAC` revises the scope in
order and finds `has_support(A, 1)` false first (2 is not in B's domain), so
it prunes A's value 1 — not B's value 3 — empties A's domain and fails with
prune list [(A, 1)]; the pair (B, 3) is never pruned and B's domain is left
non-empty at {3}. -/
theorem claim_C2_counterexample :
    (prop_GAC dwoCSP dwoState none).map
      (fun r => (r.ok, r.prunes, decide ((1, 3) ∈ r.prunes), cur_domain r.state 1)) =
      some (false, [(0, 1)], false, [3]) := by rfl

/-- Claim C2 as amended: on the scenario CSP, `prop_GAC` prunes A's value 1
(it lacks support because 2 is missing from B's domain), empties A's current
domain, and reports failure with the prunes accumulated so far, namely
[(A, 1)]; B's domain is left untouched at {3}. -/
theorem claim_C2_amended :
    (prop_GAC dwoCSP dwoState none).map
      (fun r => (r.ok, r.prunes, cur_domain r.state 0, cur_domain r.state 1)) =
      some (false, [(0, 1)], [], [3]) := by rfl

/-- The duplicate-name pair produced by `_expand` for a cell `(x, y)` and an
index `i` above both coordinates. -/
theorem warehouse_dup_mem (n x y i : Nat) (hxi : x < i) (hyi : y < i)
    (hin : i < n) :
    (⟨toString x ++ toString y ++ toString i ++ toString y,
      [(x, y), (i, y)], binary_sat n⟩ : GridCons) ∈ warehouse_binary_ne_cons n ∧
    (⟨toString x ++ toString y ++ toString i ++ toString y,
      [(x, y), (x, i)], binary_sat n⟩ : GridCons) ∈ warehouse_binary_ne_cons n ∧
    (⟨toString x ++ toString y ++ toString i ++ toString y,
      [(x, y), (i, y)], binary_sat n⟩ : GridCons) ≠
      ⟨toString x ++ toString y ++ toString i ++ toString y,
        [(x, y), (x, i)], binary_sat n⟩ := by
  have hxn : x < n := lt_trans hxi hin
  have hyn : y < n := lt_trans hyi hin
  refine ⟨?_, ?_, ?_⟩
  · refine List.mem_flatMap.2 ⟨x, List.mem_range.2 hxn,
      List.mem_flatMap.2 ⟨y, List.mem_range.2 hyn, ?_⟩⟩
    unfold expand_cell
    refine List.mem_append_left _ (List.mem_map.2 ⟨i, ?_, rfl⟩)
    rw [List.mem_range'_1]
    omega
  · refine List.mem_flatMap.2 ⟨x, List.mem_range.2 hxn,
      List.mem_flatMap.2 ⟨y, List.mem_range.2 hyn, ?_⟩⟩
    unfold expand_cell
    refine List.mem_append_right _ (List.mem_map.2 ⟨i, ?_, rfl⟩)
    rw [List.mem_range'_1]
    omega
  · intro h
    simp only [GridCons.mk.injEq, List.cons.injEq, Prod.mk.injEq, and_true,
      true_and] at h
    omega

/-- Claim C9: for every `n ≥ 2`, `warehouse_binary_ne_grid` constructs
distinct constraints carrying the same name: for any cell `(x, y)` and index
`i` above both coordinates (with `i < n`), the column-direction constraint
over `board[x][y], board[i][y]` and the row-direction constraint over
`board[x][y], board[x][i]` are both named `str(x)+str(y)+str(i)+str(y)`, so
constraint names are not unique in the resulting CSP. -/
theorem claim_C9_duplicate_names :
    (∀ (n x y i : Nat), x < i → y < i → i < n →
      (⟨toString x ++ toString y ++ toString i ++ toString y,
        [(x, y), (i, y)], binary_sat n⟩ : GridCons) ∈ warehouse_binary_ne_cons n ∧
      (⟨toString x ++ toString y ++ toString i ++ toString y,
        [(x, y), (x, i)], binary_sat n⟩ : GridCons) ∈ warehouse_binary_ne_cons n ∧
      (⟨toString x ++ toString y ++ toString i ++ toString y,
        [(x, y), (i, y)], binary_sat n⟩ : GridCons) ≠
        ⟨toString x ++ toString y ++ toString i ++ toString y,
          [(x, y), (x, i)], binary_sat n⟩) ∧
    (∀ n, 2 ≤ n → ∃ c1 c2 : GridCons, c1 ∈ warehouse_binary_ne_cons n ∧
      c2 ∈ warehouse_binary_ne_cons n ∧ c1 ≠ c2 ∧ c1.name = c2.name) := by
  refine ⟨warehouse_dup_mem, fun n hn => ?_⟩
  obtain ⟨h1, h2, h3⟩ := warehouse_dup_mem n 0 0 1 (by omega) (by omega) (by omega)
  exact ⟨_, _, h1, h2, h3, rfl⟩

/-! ## Witnesses: claim theorems applied at concrete inputs -/

/-- Witness for C1: a successful GAC run on a satisfiable instance; the
soundness theorem then yields support for B-value 1 of constraint `dwoCon`. -/
theorem claim_C1_witness : has_support gacOkState dwoCon 0 1 = true :=
  claim_C1_gac_soundness dwoCSP gacOkState ⟨true, [], gacOkState⟩ rfl rfl
    dwoCon (List.mem_cons_self _ _) 0 (List.mem_cons_self _ _)
    1 (List.mem_cons_self _ _)

/-- Witness for C3: the Nodup-preservation conjunct applied to a concrete CSP
with a duplicate-free constraint list. -/
theorem claim_C3_witness : (get_cons_with_var dwoCSP 0).Nodup :=
  claim_C3_gac_worklist.2.2.2 dwoCSP 0 (by decide)

/-- Witness for C4: the GAC conjunct applied to the DWO scenario run. -/
theorem claim_C4_witness :
    PruneAcc dwoState (prune_value dwoState 0 1) [(0, 1)] :=
  claim_C4_prune_lists.2.2 dwoCSP dwoState none
    ⟨false, [(0, 1)], prune_value dwoState 0 1⟩ dwoState_wf rfl

/-- Witness for C5: the equivalence applied to the spec's FC scenario
(variable 0 assigned 1, binary not-equal constraint). -/
theorem claim_C5_witness :
    prop_FC fcCSP fcState (some 0) =
      fc_run_spec ((get_cons_with_var fcCSP 0).filter
        (fun c => get_n_unasgn fcState c == 1)) fcState [] :=
  claim_C5_prop_FC fcCSP fcState (some 0) fcState_wf

/-- Witness for C6: the no-new-variable conjunct applied to a concrete CSP. -/
theorem claim_C6_witness : prop_BT dwoCSP dwoState none = (true, []) :=
  claim_C6_prop_BT.1 dwoCSP dwoState

/-- Witness for C7: the assignment-frame theorem applied to the FC scenario
run, instantiated at variable 0. -/
theorem claim_C7_witness :
    (prop_FC fcCSP fcState (some 0)).isSome = true ∧
    (prop_FC fcCSP fcState (some 0)).elim True
      (fun out => (out.2.2 0).assigned = (fcState 0).assigned) := by
  refine ⟨rfl, ?_⟩
  cases h : prop_FC fcCSP fcState (some 0) with
  | none => exact trivial
  | some out => exact claim_C7_fc_assigned_frame fcCSP fcState (some 0) out h 0

/-- Witness for C8: the frame theorem applied to the DWO scenario run,
instantiated at variable 1 (B keeps its assignment state). -/
theorem claim_C8_witness :
    ((prune_value dwoState 0 1) 1).assigned = (dwoState 1).assigned :=
  (claim_C8_gac_frame dwoCSP dwoState none
    ⟨false, [(0, 1)], prune_value dwoState 0 1⟩ rfl).1 1

/-- Witness for C9: the duplicate-name pair on the 2-by-2 board. -/
theorem claim_C9_witness :
    (⟨toString 0 ++ toString 0 ++ toString 1 ++ toString 0,
      [(0, 0), (1, 0)], binary_sat 2⟩ : GridCons) ∈ warehouse_binary_ne_cons 2 ∧
    (⟨toString 0 ++ toString 0 ++ toString 1 ++ toString 0,
      [(0, 0), (0, 1)], binary_sat 2⟩ : GridCons) ∈ warehouse_binary_ne_cons 2 ∧
    (⟨toString 0 ++ toString 0 ++ toString 1 ++ toString 0,
      [(0, 0), (1, 0)], binary_sat 2⟩ : GridCons) ≠
      ⟨toString 0 ++ toString 0 ++ toString 1 ++ toString 0,
        [(0, 0), (0, 1)], binary_sat 2⟩ :=
  claim_C9_duplicate_names.1 2 0 0 1 (by decide) (by decide) (by decide)

/-- Witness for C10: the `newVar = None` safety conjunct applied to a CSP
whose constraints are all binary (the precondition on unary constraints holds
vacuously). -/
theorem claim_C10_witness : prop_FC dwoCSP dwoState none ≠ none :=
  claim_C10_fc_index_safety.2.1 dwoCSP dwoState (by decide)

end PuzzleSolver

